import Mathlib

/-!
Shallow embedding of `src/chess-count-quiz.js` and proofs about it.

The repository is a timed chess-counting quiz.  The external rules engine
(chess.js) and the DOM are collaborators: the rules engine is modelled as an
abstract capability record (`RulesEngine`), DOM writes are dropped, and the
random source (`Math.random`) is threaded explicitly as a list of rational
draws.  All other logic (move classification, weighted sampling, game replay,
the answer-perspective switch, the timer/score/submission state machine) is
translated directly from the source.
-/

set_option maxHeartbeats 1000000

namespace ChessCountQuiz

/-- One legal move as produced by the rules engine's verbose move list
(`game.moves({ verbose: true })`): SAN notation, target square, moving piece
kind, and the flag string (containing "c" for a standard capture and "e" for
an en-passant capture). -/
structure Move where
  san : String
  toSq : String
  piece : String
  flags : String
deriving DecidableEq

/-- A `{ to, piece }` pair as pushed onto the `targets` list by the counting
functions. -/
structure Target where
  toSq : String
  piece : String
deriving DecidableEq

/-- The record returned by `countChecks` / `countCaptures` / `countAllLegal`:
`{ count, moves, targets }`. -/
structure AnswerRec where
  count : Nat
  moves : List String
  targets : List Target
deriving DecidableEq

/-- A FEN-equivalent position descriptor.  The source manipulates FEN strings
split on spaces; field 1 of that split is the side to move, kept here as the
explicit `turn` field (`"w"` or `"b"`), with the piece placement before it and
the remaining fields (castling, en passant, move counters) after it. -/
structure FenRec where
  placement : String
  turn : String
  rest : List String
deriving DecidableEq

/-- The external rules-engine capability (chess.js in the source), over an
abstract position type `P`: verbose legal-move enumeration, FEN export and
FEN construction (`game.fen()` / `new Chess(fen)` / `game.load(fen)`), move
application, the check query `in_check()`, the starting position
(`game.reset()` / `new Chess()`), SAN move application used during replay,
and PGN parsing composed with `game.history()` (`none` on a parse failure). -/
structure RulesEngine (P : Type) where
  moves : P → List Move
  fen : P → FenRec
  load : FenRec → P
  move : P → Move → P
  in_check : P → Bool
  start : P
  applySan : P → String → P
  load_pgn : String → Option (List String)

/-- `countChecks` (src lines 12-26): keep the moves whose trial application to
a scratch copy of the state (`new Chess(game.fen())`) leaves the resulting
side to move in check, and report their count, SAN list and target list. -/
def countChecks {P : Type} (E : RulesEngine P) (game : P) : AnswerRec :=
  let moves := E.moves game
  let checkingMoves := moves.filter fun m => E.in_check (E.move (E.load (E.fen game)) m)
  { count := checkingMoves.length,
    moves := checkingMoves.map Move.san,
    targets := checkingMoves.map fun m => { toSq := m.toSq, piece := m.piece } }

/-- `countCaptures` (src lines 29-38): keep the moves whose flag string
contains "c" (capture) or "e" (en passant). -/
def countCaptures {P : Type} (E : RulesEngine P) (game : P) : AnswerRec :=
  let moves := E.moves game
  let capturingMoves := moves.filter fun m => m.flags.contains 'c' || m.flags.contains 'e'
  { count := capturingMoves.length,
    moves := capturingMoves.map Move.san,
    targets := capturingMoves.map fun m => { toSq := m.toSq, piece := m.piece } }

/-- `countAllLegal` (src lines 41-49): the full enumerated move list. -/
def countAllLegal {P : Type} (E : RulesEngine P) (game : P) : AnswerRec :=
  let moves := E.moves game
  { count := moves.length,
    moves := moves.map Move.san,
    targets := moves.map fun m => { toSq := m.toSq, piece := m.piece } }

/-- `switchFenSides` (src lines 52-56): replace field 1 (the side to move) of
the FEN, keeping every other field. -/
def switchFenSides (fen : FenRec) (side : String) : FenRec :=
  { fen with turn := side }

/-- JS `String.prototype.startsWith`, via character lists (the built-in
`String.startsWith` is equivalent but does not reduce in the kernel). -/
def strStartsWith (s pre : String) : Bool :=
  pre.toList.isPrefixOf s.toList

/-- JS `String.prototype.endsWith`, via character lists. -/
def strEndsWith (s suf : String) : Bool :=
  suf.toList.isSuffixOf s.toList

/-- The perspective-selection half of `getOneCorrectAnswer` (src lines
150-160): for a "p1"-prefixed question type the side to move is forced to
`playerToMove`, for "p2" to the other color, otherwise a `RangeError`. -/
def answerFen (playerToMove : String) (fen : FenRec) (questionType : String) :
    Except String FenRec :=
  if strStartsWith questionType "p1" then
    .ok (switchFenSides fen playerToMove)
  else if strStartsWith questionType "p2" then
    .ok (switchFenSides fen (if playerToMove = "w" then "b" else "w"))
  else
    .error "Expected p1 or p2"

/-- `getOneCorrectAnswer` (src lines 150-170): build the side-switched FEN,
load it into a fresh engine state, and dispatch on the question-kind
suffix. -/
def getOneCorrectAnswer {P : Type} (E : RulesEngine P) (playerToMove : String)
    (fen : FenRec) (questionType : String) : Except String AnswerRec :=
  (answerFen playerToMove fen questionType).bind fun modFen =>
    let game := E.load modFen
    if strEndsWith questionType "Checks" then .ok (countChecks E game)
    else if strEndsWith questionType "Captures" then .ok (countCaptures E game)
    else if strEndsWith questionType "AllLegal" then .ok (countAllLegal E game)
    else .error "Expected Checks or Captures or AllLegal"

/-- `setPlayerToMoveAfter` (src lines 795-798): the side to move at the scored
position is `playerToMove` when `plyAhead` is even and the other color when it
is odd. -/
def setPlayerToMoveAfter (playerToMove : String) (plyAhead : Nat) : String :=
  if plyAhead % 2 = 0 then playerToMove
  else if playerToMove = "w" then "b" else "w"

/-- Side to move of a position reached by replaying `ply` half-moves from the
canonical starting position: White exactly when `ply` is even.  This encodes
the rules-engine fact that each applied half-move alternates the turn. -/
def sideAtPly (ply : Nat) : String :=
  if ply % 2 = 0 then "w" else "b"

/-- One row of the weight index: game number, half-move count, and sampling
weight.  JS numbers are modelled as rationals. -/
structure WeightEntry where
  game : Nat
  ply : Nat
  weight : ℚ
deriving DecidableEq

/-- The parity filter at the top of `getRandomPosNumber` (src line 106):
`white` keeps even plies, otherwise odd plies. -/
def samplerFilter (game_weights : List WeightEntry) (white : Bool) : List WeightEntry :=
  game_weights.filter fun entry =>
    if white then entry.ply % 2 == 0 else !(entry.ply % 2 == 0)

/-- Total weight of the filtered entries (src line 109), a left fold from 0 as
in `reduce`. -/
def totalWeightOf (filtered : List WeightEntry) : ℚ :=
  filtered.foldl (fun sum entry => sum + entry.weight) 0

/-- The threshold scan of `getRandomPosNumber` (src lines 112-118): subtract
each entry's weight from the running threshold and return the entry at which
it first goes negative; `none` when the loop runs off the end. -/
def scanLoop : List WeightEntry → ℚ → Option (Nat × Nat)
  | [], _ => none
  | entry :: rest, threshold =>
    if threshold - entry.weight < 0 then some (entry.game, entry.ply)
    else scanLoop rest (threshold - entry.weight)

/-- `getRandomPosNumber` (src lines 104-122).  The random source is threaded
as a list of rational draws in `[0, 1)`: the empty-partition check happens
before a draw is consumed, then one draw is scaled by the total weight to form
the scan threshold; if the scan somehow completes, the fallback returns the
first filtered entry.  Returns the result together with the remaining draws. -/
def getRandomPosNumber (game_weights : List WeightEntry) (white : Bool)
    (rng : List ℚ) : Except String (Nat × Nat) × List ℚ :=
  match samplerFilter game_weights white with
  | [] => (.error "No entries available for the specified color.", rng)
  | e0 :: rest =>
    let filtered := e0 :: rest
    let threshold := rng.headD 0 * totalWeightOf filtered
    match scanLoop filtered threshold with
    | some gp => (.ok gp, rng.tail)
    | none => (.ok (e0.game, e0.ply), rng.tail)

/-- Specification-side selection (inverse-CDF reading of the spec): scan the
entries in stable order, tracking the cumulative weight `acc` of the entries
already passed, and return the first entry whose cumulative weight strictly
exceeds `t`. -/
def firstCumExceedingFrom (t : ℚ) : ℚ → List WeightEntry → Option WeightEntry
  | _, [] => none
  | acc, entry :: rest =>
    if t < acc + entry.weight then some entry
    else firstCumExceedingFrom t (acc + entry.weight) rest

/-- Specification-side selection starting from cumulative weight 0: the first
entry of the list whose cumulative weight strictly exceeds `t`. -/
def firstCumExceeding (filtered : List WeightEntry) (t : ℚ) : Option WeightEntry :=
  firstCumExceedingFrom t 0 filtered

/-- The replay loop of `getGame` (src lines 136-139): reset to the starting
position and apply the first `ply` recorded SAN moves in order.  (For
`ply` beyond the history length the extra iterations apply `undefined`, which
chess.js rejects without changing the state; `take` reproduces that.) -/
def replayTo {P : Type} (E : RulesEngine P) (moves : List String) (ply : Nat) : P :=
  (moves.take ply).foldl E.applySan E.start

/-- `getGame` (src lines 125-140): fetch the PGN with the given index, parse
it (`none` models the `null` return on a parse error), then replay the first
`ply` moves of its history from the starting position. -/
def getGame {P : Type} (E : RulesEngine P) (games : List String)
    (game_index ply : Nat) : Option P :=
  match games.get? game_index with
  | none => none
  | some pgn =>
    match E.load_pgn pgn with
    | none => none
    | some moves => some (replayTo E moves ply)

/-- The value of `chess_data.timeRemaining`: a JS number that is either a
finite (integer-valued) count of seconds or `Infinity` (untimed mode, set by
`startTimer` when the timer is hidden). -/
inductive TimeVal where
  | fin (val : Int)
  | inf
deriving DecidableEq

/-- `Math.max(0, t - k)`, the floored subtraction applied by the tick callback
and by `penalizeTime`; subtracting from `Infinity` leaves `Infinity`. -/
def timeSub : TimeVal → Nat → TimeVal
  | .fin v, k => .fin (max 0 (v - (k : Int)))
  | .inf, _ => .inf

/-- The guard `chess_data.timeRemaining <= 0`; false for `Infinity`. -/
def timeLEZero : TimeVal → Bool
  | .fin v => decide (v ≤ 0)
  | .inf => false

/-- Comparison of two time values, with `Infinity` on top. -/
def timeLE : TimeVal → TimeVal → Bool
  | .fin a, .fin b => decide (a ≤ b)
  | _, .inf => true
  | .inf, .fin _ => false

/-- Non-negativity of a time value (`Infinity` counts as non-negative). -/
def timeNonneg : TimeVal → Bool
  | .fin v => decide (0 ≤ v)
  | .inf => true

/-- The session state mutated by the timer/score/submission code: the fields
of the `chess_data` global touched by those functions, together with the
`gameEnded` global.  `correct` maps a question type to the `count` field of
its stored `AnswerRec`; `is_correct` is the per-question correctness map,
false outside its keys (a missing JS key is falsy). -/
structure ChessData where
  score : Nat
  timeRemaining : TimeVal
  gameEnded : Bool
  playerToMove : String
  questionTypes : List String
  correct : String → Nat
  is_correct : String → Bool

/-- `endGame` (src lines 296-306): a one-way latch on `gameEnded`; when the
game is already ended it returns immediately (the timer clearing and the
answer reveal are DOM effects and are dropped). -/
def endGame (st : ChessData) : ChessData :=
  if st.gameEnded then st else { st with gameEnded := true }

/-- `penalizeTime` (src lines 221-225): subtract 10 seconds, floored at 0,
then end the game if the clock reached 0.  Note there is no `gameEnded` guard
here. -/
def penalizeTime (st : ChessData) : ChessData :=
  let st2 := { st with timeRemaining := timeSub st.timeRemaining 10 }
  if timeLEZero st2.timeRemaining then endGame st2 else st2

/-- The body of the `setInterval` callback installed by `initTimer` (src lines
203-210): a no-op once `gameEnded` is set, otherwise subtract 1 second,
floored at 0, and end the game if the clock reached 0. -/
def tickStep (st : ChessData) : ChessData :=
  if st.gameEnded then st
  else
    let st2 := { st with timeRemaining := timeSub st.timeRemaining 1 }
    if timeLEZero st2.timeRemaining then endGame st2 else st2

/-- The two time-mutating events a session can receive: a timer tick and an
incorrect-answer penalty. -/
inductive TimerEv where
  | tick
  | penalty
deriving DecidableEq

/-- Apply one timer event to the session state. -/
def timerStep (st : ChessData) : TimerEv → ChessData
  | .tick => tickStep st
  | .penalty => penalizeTime st

/-- `qTypeForAbsColorAndKind` (src lines 230-234): prefix "p1" when the
absolute color is the side `playerToMove`, else "p2". -/
def qTypeForAbsColorAndKind (playerToMove color kind : String) : String :=
  (if color = playerToMove then "p1" else "p2") ++ kind

/-- `getFixedDisplayQuestionTypes` (src lines 236-248): the active question
types in fixed display order (White then Black, AllLegal then Checks then
Captures). -/
def getFixedDisplayQuestionTypes (playerToMove : String)
    (questionTypes : List String) : List String :=
  ["w", "b"].flatMap fun color =>
    ["AllLegal", "Checks", "Captures"].flatMap fun kind =>
      let qt := qTypeForAbsColorAndKind playerToMove color kind
      if questionTypes.contains qt then [qt] else []

/-- One iteration of the `submitAnswers` loop (src lines 637-656) for question
type `id`: compare the parsed input (`none` models `NaN`, which compares
unequal to every count) to the stored correct count; on first-time-correct
mark the question and increment the score; on incorrect apply the time
penalty.  Feedback-icon writes are DOM effects and are dropped. -/
def submitOne (inputs : String → Option Int) (st : ChessData) (id : String) :
    ChessData :=
  let isCorrect := inputs id == some ((st.correct id : Int))
  let st2 :=
    if !st.is_correct id && isCorrect then
      { st with
        is_correct := fun x => if x = id then true else st.is_correct x,
        score := st.score + 1 }
    else st
  if !isCorrect then penalizeTime st2 else st2

/-- `submitAnswers` (src lines 633-662): a no-op once the game has ended;
otherwise run the loop over the displayed question types, stop if a penalty
ended the game mid-submission, and when every question is marked correct load
the next puzzle.  `loadNewPuzzle` performs a random draw and DOM work, so it
is passed in as the state transformer `reload`. -/
def submitAnswers (inputs : String → Option Int)
    (reload : ChessData → ChessData) (st : ChessData) : ChessData :=
  if st.gameEnded then st
  else
    let st2 := (getFixedDisplayQuestionTypes st.playerToMove st.questionTypes).foldl
      (submitOne inputs) st
    if st2.gameEnded then st2
    else
      let all_correct := ((getFixedDisplayQuestionTypes st2.playerToMove
        st2.questionTypes).map fun id => st2.is_correct id).foldl
          (fun acc cur => acc && cur) true
      if all_correct then reload st2 else st2

/-- A miniature concrete rules engine used only to evaluate the universally
quantified theorems on concrete input: a position is the list of SAN moves
played so far. -/
def listEngine : RulesEngine (List String) where
  moves := fun _ => []
  fen := fun p => { placement := String.intercalate " " p, turn := "w", rest := [] }
  load := fun _ => []
  move := fun p _ => p
  in_check := fun _ => false
  start := []
  applySan := fun p san => p ++ [san]
  load_pgn := fun pgn => some [pgn]

/-- A concrete session state (3-minute clock, two active questions, every
correct count 3, nothing answered yet) used to evaluate the state-machine
theorems on concrete input. -/
def demoState : ChessData where
  score := 0
  timeRemaining := .fin 180
  gameEnded := false
  playerToMove := "w"
  questionTypes := ["p1Checks", "p1Captures"]
  correct := fun _ => 3
  is_correct := fun _ => false

/-- Concrete submitted counts for `demoState`: correct for `p1Checks`, wrong
for everything else. -/
def demoInputs : String → Option Int :=
  fun id => if id = "p1Checks" then some 3 else some 5

/-!  Theorems.  -/

/-- Claim C2: a legal move is classified as a Check exactly when its trial
application to a scratch copy of the state (`new Chess(game.fen())`) yields a
state whose side to move is in check; the resulting record's count is the
number of such moves among the enumerated legal moves, and its `moves` and
`targets` lists are exactly the SANs and (square, piece) pairs of those
moves, in enumeration order. -/
theorem countChecks_trial_classification {P : Type} (E : RulesEngine P) (game : P) :
    (∀ m, m ∈ (E.moves game).filter
        (fun m => E.in_check (E.move (E.load (E.fen game)) m)) ↔
      m ∈ E.moves game ∧ E.in_check (E.move (E.load (E.fen game)) m) = true)
    ∧ (countChecks E game).count =
        (E.moves game).countP (fun m => E.in_check (E.move (E.load (E.fen game)) m))
    ∧ (countChecks E game).moves =
        ((E.moves game).filter
          (fun m => E.in_check (E.move (E.load (E.fen game)) m))).map Move.san
    ∧ (countChecks E game).targets =
        ((E.moves game).filter
          (fun m => E.in_check (E.move (E.load (E.fen game)) m))).map
            (fun m => { toSq := m.toSq, piece := m.piece }) := by
  refine ⟨fun m => List.mem_filter, ?_, rfl, rfl⟩
  simp [countChecks, List.countP_eq_length_filter]

/-- Claim C9: the Captures and Checks move sets are subsets of the AllLegal
move set (both by SAN notation and by (square, piece) target identity), and
their counts are at most the AllLegal count. -/
theorem checks_captures_subset_allLegal {P : Type} (E : RulesEngine P) (game : P) :
    (countCaptures E game).count ≤ (countAllLegal E game).count
    ∧ (countChecks E game).count ≤ (countAllLegal E game).count
    ∧ (countCaptures E game).moves ⊆ (countAllLegal E game).moves
    ∧ (countChecks E game).moves ⊆ (countAllLegal E game).moves
    ∧ (countCaptures E game).targets ⊆ (countAllLegal E game).targets
    ∧ (countChecks E game).targets ⊆ (countAllLegal E game).targets :=
  ⟨(List.filter_sublist _).length_le, (List.filter_sublist _).length_le,
    ((List.filter_sublist _).map _).subset, ((List.filter_sublist _).map _).subset,
    ((List.filter_sublist _).map _).subset, ((List.filter_sublist _).map _).subset⟩

/-- Left-folding weights from `a` adds the list's weight sum to `a`. -/
theorem foldl_add_weight (l : List WeightEntry) :
    ∀ a : ℚ, l.foldl (fun sum entry => sum + entry.weight) a
      = a + (l.map WeightEntry.weight).sum := by
  induction l with
  | nil => intro a; simp
  | cons e rest ih =>
    intro a
    simp only [List.foldl_cons, List.map_cons, List.sum_cons, ih, add_assoc]

/-- `totalWeightOf` is the sum of the weights. -/
theorem totalWeightOf_eq_sum (l : List WeightEntry) :
    totalWeightOf l = (l.map WeightEntry.weight).sum := by
  have := foldl_add_weight l 0
  rw [totalWeightOf, this, zero_add]

/-- The threshold scan with threshold `t - acc` agrees with the cumulative
inverse-CDF scan started at cumulative weight `acc`. -/
theorem scanLoop_eq_firstCum (l : List WeightEntry) :
    ∀ t acc : ℚ, scanLoop l (t - acc)
      = (firstCumExceedingFrom t acc l).map fun e => (e.game, e.ply) := by
  induction l with
  | nil => intro t acc; rfl
  | cons e rest ih =>
    intro t acc
    simp only [scanLoop, firstCumExceedingFrom]
    by_cases h : t < acc + e.weight
    · rw [if_pos (by linarith), if_pos h]
      rfl
    · rw [if_neg (by rw [not_lt] at h ⊢; linarith), if_neg h,
        show t - acc - e.weight = t - (acc + e.weight) by ring, ih]

/-- The cumulative scan finds an entry whenever `t` lies between the starting
cumulative weight and the final one. -/
theorem firstCumFrom_total (l : List WeightEntry) :
    ∀ acc t : ℚ, acc ≤ t → t < acc + (l.map WeightEntry.weight).sum →
      ∃ e, firstCumExceedingFrom t acc l = some e := by
  induction l with
  | nil =>
    intro acc t h1 h2
    simp only [List.map_nil, List.sum_nil, add_zero] at h2
    exact absurd h2 (not_lt.mpr h1)
  | cons e rest ih =>
    intro acc t h1 h2
    by_cases h : t < acc + e.weight
    · exact ⟨e, by simp [firstCumExceedingFrom, if_pos h]⟩
    · simp only [List.map_cons, List.sum_cons] at h2
      obtain ⟨x, hx⟩ := ih (acc + e.weight) t (not_lt.mp h) (by linarith)
      exact ⟨x, by simp [firstCumExceedingFrom, if_neg h, hx]⟩

/-- Whatever the scan returns is the (game, ply) pair of some entry of the
scanned list. -/
theorem scanLoop_mem (l : List WeightEntry) :
    ∀ th g p, scanLoop l th = some (g, p) → ∃ e ∈ l, e.game = g ∧ e.ply = p := by
  induction l with
  | nil => intro th g p h; exact absurd h (by simp [scanLoop])
  | cons e rest ih =>
    intro th g p h
    simp only [scanLoop] at h
    by_cases hc : th - e.weight < 0
    · rw [if_pos hc] at h
      injection h with h
      exact ⟨e, List.mem_cons_self _ _, congrArg Prod.fst h, congrArg Prod.snd h⟩
    · rw [if_neg hc] at h
      obtain ⟨x, hm, hx⟩ := ih _ g p h
      exact ⟨x, List.mem_cons_of_mem _ hm, hx⟩

/-- Membership in the parity filter: the entry comes from the index and its
ply parity matches the requested side. -/
theorem samplerFilter_spec (gw : List WeightEntry) (white : Bool) (e : WeightEntry)
    (h : e ∈ samplerFilter gw white) :
    e ∈ gw ∧ (white = true → e.ply % 2 = 0) ∧ (white = false → e.ply % 2 = 1) := by
  rw [samplerFilter, List.mem_filter] at h
  refine ⟨h.1, ?_, ?_⟩ <;> intro hw <;> subst hw <;>
    have h2 := h.2 <;> simp at h2 <;> omega

/-- Unfolding `getRandomPosNumber` when the parity filter is empty. -/
theorem getRandomPosNumber_nil (gw : List WeightEntry) (white : Bool)
    (rng : List ℚ) (hf : samplerFilter gw white = []) :
    getRandomPosNumber gw white rng
      = (.error "No entries available for the specified color.", rng) := by
  unfold getRandomPosNumber
  rw [hf]

/-- Unfolding `getRandomPosNumber` when the parity filter is non-empty. -/
theorem getRandomPosNumber_cons (gw : List WeightEntry) (white : Bool)
    (rng : List ℚ) (e0 : WeightEntry) (l : List WeightEntry)
    (hf : samplerFilter gw white = e0 :: l) :
    getRandomPosNumber gw white rng
      = (match scanLoop (e0 :: l) (rng.headD 0 * totalWeightOf (e0 :: l)) with
        | some gp => (.ok gp, rng.tail)
        | none => (.ok (e0.game, e0.ply), rng.tail)) := by
  unfold getRandomPosNumber
  rw [hf]

/-- A successful draw is the (game, ply) of some entry of the filtered
subset. -/
theorem getRandomPosNumber_ok_mem (gw : List WeightEntry) (white : Bool)
    (rng : List ℚ) (g p : Nat)
    (h : (getRandomPosNumber gw white rng).1 = .ok (g, p)) :
    ∃ e ∈ samplerFilter gw white, e.game = g ∧ e.ply = p := by
  cases hf : samplerFilter gw white with
  | nil =>
    rw [getRandomPosNumber_nil gw white rng hf] at h
    exact absurd h (by simp)
  | cons e0 l =>
    rw [getRandomPosNumber_cons gw white rng e0 l hf] at h
    cases hs : scanLoop (e0 :: l) (rng.headD 0 * totalWeightOf (e0 :: l)) with
    | some gp =>
      obtain ⟨g2, p2⟩ := gp
      rw [hs] at h
      simp only at h
      injection h with h
      injection h with h1 h2
      obtain ⟨e, hm, he⟩ := scanLoop_mem (e0 :: l) _ g2 p2 hs
      exact ⟨e, hf.symm ▸ hm, h1 ▸ he.1, h2 ▸ he.2⟩
    | none =>
      rw [hs] at h
      simp only at h
      injection h with h
      injection h with h1 h2
      exact ⟨e0, hf.symm ▸ List.mem_cons_self e0 l, h1, h2⟩

/-- Claim C4: with a non-empty positively weighted filtered subset and a draw
`r` in `[0, 1)` (so a scaled threshold `t = r · totalWeight` in
`[0, totalWeight)`), the linear threshold scan returns exactly the first
filtered entry whose cumulative weight strictly exceeds `t` — inverse-CDF
discrete weighted selection, deterministic given the draw. -/
theorem sampler_inverse_cdf (gw : List WeightEntry) (white : Bool) (r : ℚ)
    (rest : List ℚ)
    (hne : samplerFilter gw white ≠ [])
    (hpos : ∀ e ∈ samplerFilter gw white, 0 < e.weight)
    (hr0 : 0 ≤ r) (hr1 : r < 1) :
    ∃ e, firstCumExceeding (samplerFilter gw white)
        (r * totalWeightOf (samplerFilter gw white)) = some e
      ∧ (getRandomPosNumber gw white (r :: rest)).1 = .ok (e.game, e.ply) := by
  cases hf : samplerFilter gw white with
  | nil => exact absurd hf hne
  | cons e0 l =>
    rw [hf] at hpos
    have htot : totalWeightOf (e0 :: l) = ((e0 :: l).map WeightEntry.weight).sum :=
      totalWeightOf_eq_sum _
    have hsum_nonneg : 0 ≤ (l.map WeightEntry.weight).sum := by
      refine List.sum_nonneg ?_
      intro x hx
      obtain ⟨e, he, rfl⟩ := List.mem_map.mp hx
      exact le_of_lt (hpos e (List.mem_cons_of_mem _ he))
    have hTpos : 0 < totalWeightOf (e0 :: l) := by
      rw [htot]
      simp only [List.map_cons, List.sum_cons]
      have := hpos e0 (List.mem_cons_self _ _)
      linarith
    have ht0 : 0 ≤ r * totalWeightOf (e0 :: l) := mul_nonneg hr0 (le_of_lt hTpos)
    have htlt : r * totalWeightOf (e0 :: l) < totalWeightOf (e0 :: l) := by
      nth_rewrite 2 [← one_mul (totalWeightOf (e0 :: l))]
      exact mul_lt_mul_of_pos_right hr1 hTpos
    obtain ⟨e, he⟩ := firstCumFrom_total (e0 :: l) 0
      (r * totalWeightOf (e0 :: l)) ht0 (by rw [zero_add, ← htot]; exact htlt)
    have hscan : scanLoop (e0 :: l) (r * totalWeightOf (e0 :: l))
        = some (e.game, e.ply) := by
      have h2 := scanLoop_eq_firstCum (e0 :: l) (r * totalWeightOf (e0 :: l)) 0
      rw [sub_zero] at h2
      rw [h2, he]
      rfl
    refine ⟨e, he, ?_⟩
    rw [getRandomPosNumber_cons gw white (r :: rest) e0 l hf]
    have hhead : (r :: rest).headD 0 = r := rfl
    rw [hhead, hscan]

/-- Witness for `sampler_inverse_cdf`: index `[{game 0, ply 0, weight 1},
{game 1, ply 2, weight 2}]`, White requested, draw `1/2` (threshold `3/2`),
selecting the second entry. -/
theorem sampler_inverse_cdf_witness :
    samplerFilter [⟨0, 0, 1⟩, ⟨1, 2, 2⟩] true ≠ []
    ∧ (0 : ℚ) ≤ 1/2 ∧ (1/2 : ℚ) < 1
    ∧ ∃ e, firstCumExceeding (samplerFilter [⟨0, 0, 1⟩, ⟨1, 2, 2⟩] true)
        (1/2 * totalWeightOf (samplerFilter [⟨0, 0, 1⟩, ⟨1, 2, 2⟩] true)) = some e
      ∧ (getRandomPosNumber [⟨0, 0, 1⟩, ⟨1, 2, 2⟩] true [1/2]).1
          = .ok (e.game, e.ply) :=
  ⟨by decide, by norm_num, by norm_num,
    sampler_inverse_cdf [⟨0, 0, 1⟩, ⟨1, 2, 2⟩] true (1/2) []
      (by decide) (by decide) (by norm_num) (by norm_num)⟩

/-- Claim C5: whatever the sampler returns is the (game, ply) of an entry of
the input index whose ply parity matches the requested side: even ply when
White-to-move is required, odd ply otherwise. -/
theorem sampler_parity_matches_side (gw : List WeightEntry) (white : Bool)
    (rng : List ℚ) (g p : Nat)
    (h : (getRandomPosNumber gw white rng).1 = .ok (g, p)) :
    ∃ e ∈ gw, e.game = g ∧ e.ply = p
      ∧ (white = true → p % 2 = 0) ∧ (white = false → p % 2 = 1) := by
  obtain ⟨e, heF, hg, hp⟩ := getRandomPosNumber_ok_mem gw white rng g p h
  obtain ⟨hmem, hw, hb⟩ := samplerFilter_spec gw white e heF
  exact ⟨e, hmem, hg, hp, fun hx => hp ▸ hw hx, fun hx => hp ▸ hb hx⟩

/-- Witness for `sampler_parity_matches_side`: a one-entry even-ply index with
White requested returns that entry. -/
theorem sampler_parity_matches_side_witness :
    (getRandomPosNumber [⟨7, 2, 1⟩] true [0]).1 = .ok (7, 2)
    ∧ ∃ e ∈ ([⟨7, 2, 1⟩] : List WeightEntry), e.game = 7 ∧ e.ply = 2
      ∧ (true = true → 2 % 2 = 0) ∧ (true = false → 2 % 2 = 1) := by
  have h : (getRandomPosNumber [⟨7, 2, 1⟩] true [0]).1 = .ok (7, 2) := by
    norm_num [getRandomPosNumber, samplerFilter, totalWeightOf, scanLoop]
  exact ⟨h, sampler_parity_matches_side [⟨7, 2, 1⟩] true [0] 7 2 h⟩

/-- Claim C6: the sampler fails (with the empty-partition error) exactly when
the parity-filtered subset is empty, and on failure the error is raised before
the random draw is consumed (the draw list is returned untouched) and no entry
is returned. -/
theorem sampler_empty_partition_iff (gw : List WeightEntry) (white : Bool)
    (rng : List ℚ) :
    ((∃ msg, (getRandomPosNumber gw white rng).1 = .error msg) ↔
        samplerFilter gw white = [])
    ∧ (samplerFilter gw white = [] →
        (getRandomPosNumber gw white rng).1
            = .error "No entries available for the specified color."
        ∧ (getRandomPosNumber gw white rng).2 = rng) := by
  constructor
  · constructor
    · rintro ⟨msg, hmsg⟩
      cases hf : samplerFilter gw white with
      | nil => rfl
      | cons e0 l =>
        rw [getRandomPosNumber_cons gw white rng e0 l hf] at hmsg
        cases hs : scanLoop (e0 :: l) (rng.headD 0 * totalWeightOf (e0 :: l)) with
        | some gp => rw [hs] at hmsg; exact absurd hmsg (by simp)
        | none => rw [hs] at hmsg; exact absurd hmsg (by simp)
    · intro hf
      rw [getRandomPosNumber_nil gw white rng hf]
      exact ⟨_, rfl⟩
  · intro hf
    rw [getRandomPosNumber_nil gw white rng hf]
    exact ⟨rfl, rfl⟩

/-- Witness for `sampler_empty_partition_iff`: a single odd-ply entry with
White requested leaves the filter empty; the error is produced and the draw
list `[1/2]` is returned unconsumed. -/
theorem sampler_empty_partition_iff_witness :
    ((∃ msg, (getRandomPosNumber [⟨0, 1, 1⟩] true [1/2]).1 = .error msg) ↔
        samplerFilter [⟨0, 1, 1⟩] true = [])
    ∧ (samplerFilter [⟨0, 1, 1⟩] true = [] →
        (getRandomPosNumber [⟨0, 1, 1⟩] true [1/2]).1
            = .error "No entries available for the specified color."
        ∧ (getRandomPosNumber [⟨0, 1, 1⟩] true [1/2]).2 = [1/2]) :=
  sampler_empty_partition_iff [⟨0, 1, 1⟩] true [1/2]

/-- Claim C10: when the parity-filtered subset is non-empty the sampler always
returns some filtered entry (never an undefined result); in particular, if the
threshold scan completes without going negative, the fallback branch returns
the first filtered entry. -/
theorem sampler_nonempty_returns_entry (gw : List WeightEntry) (white : Bool)
    (rng : List ℚ) (e0 : WeightEntry) (l : List WeightEntry)
    (hf : samplerFilter gw white = e0 :: l) :
    (∃ e ∈ samplerFilter gw white,
        (getRandomPosNumber gw white rng).1 = .ok (e.game, e.ply))
    ∧ (scanLoop (samplerFilter gw white)
          (rng.headD 0 * totalWeightOf (samplerFilter gw white)) = none →
        (getRandomPosNumber gw white rng).1 = .ok (e0.game, e0.ply)) := by
  rw [hf, getRandomPosNumber_cons gw white rng e0 l hf]
  cases hs : scanLoop (e0 :: l) (rng.headD 0 * totalWeightOf (e0 :: l)) with
  | some gp =>
    obtain ⟨g2, p2⟩ := gp
    obtain ⟨e, hmem, hg, hp⟩ := scanLoop_mem (e0 :: l) _ g2 p2 hs
    constructor
    · exact ⟨e, hmem, by rw [hg, hp]⟩
    · intro hc
      exact Option.noConfusion hc
  | none =>
    exact ⟨⟨e0, List.mem_cons_self _ _, rfl⟩, fun _ => rfl⟩

/-- Witness for `sampler_nonempty_returns_entry`: one entry of weight 1 with
draw 1 makes the scan complete without going negative, so the fallback returns
the first (only) filtered entry. -/
theorem sampler_nonempty_returns_entry_witness :
    samplerFilter [⟨0, 0, 1⟩] true = [⟨0, 0, 1⟩]
    ∧ ((∃ e ∈ samplerFilter [⟨0, 0, 1⟩] true,
          (getRandomPosNumber [⟨0, 0, 1⟩] true [1]).1 = .ok (e.game, e.ply))
      ∧ (scanLoop (samplerFilter [⟨0, 0, 1⟩] true)
            (([1] : List ℚ).headD 0 * totalWeightOf (samplerFilter [⟨0, 0, 1⟩] true))
              = none →
          (getRandomPosNumber [⟨0, 0, 1⟩] true [1]).1 = .ok (0, 0))) :=
  ⟨by decide,
    sampler_nonempty_returns_entry [⟨0, 0, 1⟩] true [1] ⟨0, 0, 1⟩ [] (by decide)⟩

/-- Folding over one more taken element applies the fold step once more, to
the k-th item. -/
theorem foldl_take_succ {α β : Type} (f : β → α → β) :
    ∀ (l : List α) (k : Nat) (hk : k < l.length) (init : β),
      (l.take (k + 1)).foldl f init = f ((l.take k).foldl f init) (l.get ⟨k, hk⟩) := by
  intro l
  induction l with
  | nil => intro k hk; exact absurd hk (by simp)
  | cons a t ih =>
    intro k hk init
    cases k with
    | zero => rfl
    | succ k2 =>
      simp only [List.take_succ_cons, List.foldl_cons, List.get_cons_succ]
      exact ih k2 (by simpa using hk) (f init a)

/-- `getGame` with a valid index and parseable transcript replays the first
`ply` history moves. -/
theorem getGame_eq_replay {P : Type} (E : RulesEngine P) (games : List String)
    (gi : Nat) (pgn : String) (moves : List String)
    (hg : games.get? gi = some pgn) (hp : E.load_pgn pgn = some moves) (ply : Nat) :
    getGame E games gi ply = some (replayTo E moves ply) := by
  unfold getGame
  simp only [hg, hp]

/-- Claim C3: for a game with a replayable move list, materializing at ply 0
yields the engine's canonical starting position, and materializing at ply
`k + 1` equals applying the (k+1)-th recorded move to the position
materialized at ply `k` — `getGame` replays exactly moves `0..ply-1` from the
starting position. -/
theorem getGame_replays_prefix {P : Type} (E : RulesEngine P) (games : List String)
    (gi : Nat) (pgn : String) (moves : List String)
    (hg : games.get? gi = some pgn) (hp : E.load_pgn pgn = some moves) :
    getGame E games gi 0 = some E.start
    ∧ ∀ (k : Nat) (hk : k < moves.length),
        getGame E games gi (k + 1)
          = some (E.applySan (replayTo E moves k) (moves.get ⟨k, hk⟩)) := by
  constructor
  · rw [getGame_eq_replay E games gi pgn moves hg hp 0]
    rfl
  · intro k hk
    rw [getGame_eq_replay E games gi pgn moves hg hp (k + 1)]
    unfold replayTo
    rw [foldl_take_succ E.applySan moves k hk E.start]

/-- Witness for `getGame_replays_prefix` on the miniature engine: a one-game
corpus whose transcript parses to the single-move history `["e4 e5"]`. -/
theorem getGame_replays_prefix_witness :
    (["e4 e5"] : List String).get? 0 = some "e4 e5"
    ∧ listEngine.load_pgn "e4 e5" = some ["e4 e5"]
    ∧ getGame listEngine ["e4 e5"] 0 0 = some listEngine.start
    ∧ getGame listEngine ["e4 e5"] 0 1
        = some (listEngine.applySan (replayTo listEngine ["e4 e5"] 0)
            ((["e4 e5"] : List String).get ⟨0, by decide⟩)) := by
  have hg : (["e4 e5"] : List String).get? 0 = some "e4 e5" := rfl
  have hp : listEngine.load_pgn "e4 e5" = some ["e4 e5"] := rfl
  obtain ⟨h0, hsucc⟩ :=
    getGame_replays_prefix listEngine ["e4 e5"] 0 "e4 e5" ["e4 e5"] hg hp
  exact ⟨hg, hp, h0, hsucc 0 (by decide)⟩

/-- Claim C1 counterexample: with `plyAhead = 1` and `playerToMove = "w"` the
side to move at the scored position is Black — `setPlayerToMoveAfter` yields
"b", the sampler then draws the odd ply 1, and the materialized FEN has
`turn = "b"` — yet the `p1` (Mover) answer is evaluated on a FEN whose side to
move has been forced to `"w"`: the enumerated state does not have the
side-to-move of the materialized position. -/
theorem p1_not_as_is_counterexample :
    setPlayerToMoveAfter "w" 1 = "b"
    ∧ (getRandomPosNumber [⟨0, 1, 1⟩] (setPlayerToMoveAfter "w" 1 == "w") [0]).1
        = .ok (0, 1)
    ∧ sideAtPly 1 = "b"
    ∧ answerFen "w" ⟨"pl", "b", []⟩ "p1Checks" = .ok ⟨"pl", "w", []⟩
    ∧ (⟨"pl", "w", []⟩ : FenRec).turn ≠ (⟨"pl", "b", []⟩ : FenRec).turn := by
  refine ⟨by decide, ?_, by decide, ?_, by decide⟩
  · have hW : (setPlayerToMoveAfter "w" 1 == "w") = false := by decide
    rw [hW]
    norm_num [getRandomPosNumber, samplerFilter, totalWeightOf, scanLoop]
  · unfold answerFen
    rw [if_pos (by decide)]
    rfl

/-- Claim C1 (amended): the `p1` (Mover) answer is computed on the
materialized position as-is exactly in the even-`plyAhead` configurations.
When `plyAhead` is even, `setPlayerToMoveAfter` keeps `playerToMove`, the
sampler's parity constraint makes the materialized position's side to move
equal `playerToMove`, and the FEN whose legal moves the `p1` answer
enumerates is identical to the materialized FEN, side to move included; when
`plyAhead` is odd the `p1` FEN instead has the side to move flipped relative
to the scored position (see the counterexample). -/
theorem p1_as_is_when_plyAhead_even (gw : List WeightEntry) (pm : String)
    (plyAhead : Nat) (rng : List ℚ) (g p : Nat) (fen : FenRec) (qt : String)
    (mf : FenRec)
    (hpm : pm = "w" ∨ pm = "b")
    (heven : plyAhead % 2 = 0)
    (hs : (getRandomPosNumber gw (setPlayerToMoveAfter pm plyAhead == "w") rng).1
        = .ok (g, p))
    (hfen : fen.turn = sideAtPly p)
    (hqt : strStartsWith qt "p1" = true)
    (hmf : answerFen pm fen qt = .ok mf) :
    mf = fen ∧ mf.turn = fen.turn := by
  have hafter : setPlayerToMoveAfter pm plyAhead = pm := by
    unfold setPlayerToMoveAfter
    rw [if_pos heven]
  rw [hafter] at hs
  obtain ⟨e, heF, hg2, hp2⟩ := getRandomPosNumber_ok_mem gw (pm == "w") rng g p hs
  obtain ⟨hmem, hw, hb⟩ := samplerFilter_spec gw (pm == "w") e heF
  have hturn : fen.turn = pm := by
    rcases hpm with h | h
    · subst h
      have h2 : e.ply % 2 = 0 := hw (by decide)
      rw [hp2] at h2
      rw [hfen]
      unfold sideAtPly
      rw [if_pos h2]
    · subst h
      have h2 : e.ply % 2 = 1 := hb (by decide)
      rw [hp2] at h2
      rw [hfen]
      unfold sideAtPly
      rw [if_neg (by omega)]
  unfold answerFen at hmf
  rw [if_pos hqt] at hmf
  injection hmf with hmf
  subst hmf
  have hrec : switchFenSides fen pm = fen := by
    cases fen with
    | mk pl t r =>
      simp only [switchFenSides, FenRec.mk.injEq]
      exact ⟨trivial, by simpa using hturn.symm, trivial⟩
  exact ⟨hrec, by rw [hrec]⟩

/-- Witness for `p1_as_is_when_plyAhead_even`: `plyAhead = 0`,
`playerToMove = "w"`, a single even-ply weight entry, and the `p1Checks`
question; the `p1` FEN equals the materialized FEN. -/
theorem p1_as_is_when_plyAhead_even_witness :
    (0 : Nat) % 2 = 0
    ∧ (getRandomPosNumber [⟨0, 2, 1⟩] (setPlayerToMoveAfter "w" 0 == "w") [0]).1
        = .ok (0, 2)
    ∧ (⟨"pl", "w", []⟩ : FenRec).turn = sideAtPly 2
    ∧ strStartsWith "p1Checks" "p1" = true
    ∧ answerFen "w" ⟨"pl", "w", []⟩ "p1Checks" = .ok ⟨"pl", "w", []⟩
    ∧ ((⟨"pl", "w", []⟩ : FenRec) = ⟨"pl", "w", []⟩
        ∧ (⟨"pl", "w", []⟩ : FenRec).turn = (⟨"pl", "w", []⟩ : FenRec).turn) := by
  have hs : (getRandomPosNumber [⟨0, 2, 1⟩]
      (setPlayerToMoveAfter "w" 0 == "w") [0]).1 = .ok (0, 2) := by
    have hW : (setPlayerToMoveAfter "w" 0 == "w") = true := by decide
    rw [hW]
    norm_num [getRandomPosNumber, samplerFilter, totalWeightOf, scanLoop]
  have hmf : answerFen "w" ⟨"pl", "w", []⟩ "p1Checks" = .ok ⟨"pl", "w", []⟩ := by
    unfold answerFen
    rw [if_pos (by decide)]
    rfl
  exact ⟨rfl, hs, rfl, by decide, hmf,
    p1_as_is_when_plyAhead_even [⟨0, 2, 1⟩] "w" 0 [0] 0 2 ⟨"pl", "w", []⟩
      "p1Checks" ⟨"pl", "w", []⟩ (Or.inl rfl) rfl hs rfl (by decide) hmf⟩

/-- Floored subtraction never leaves a negative clock. -/
theorem timeSub_nonneg (t : TimeVal) (k : Nat) : timeNonneg (timeSub t k) = true := by
  cases t with
  | fin v => simp [timeSub, timeNonneg]
  | inf => rfl

/-- Floored subtraction does not increase a non-negative clock. -/
theorem timeSub_le (t : TimeVal) (k : Nat) (h : timeNonneg t = true) :
    timeLE (timeSub t k) t = true := by
  cases t with
  | fin v =>
    simp [timeSub, timeLE, timeNonneg] at *
    omega
  | inf => rfl

/-- `timeLE` is reflexive. -/
theorem timeLE_refl (t : TimeVal) : timeLE t t = true := by
  cases t <;> simp [timeLE]

/-- `timeLE` is transitive. -/
theorem timeLE_trans (a b c : TimeVal) (h1 : timeLE a b = true)
    (h2 : timeLE b c = true) : timeLE a c = true := by
  cases a <;> cases b <;> cases c <;> simp [timeLE] at * <;> omega

/-- `endGame` keeps the clock. -/
@[simp] theorem endGame_timeRemaining (st : ChessData) :
    (endGame st).timeRemaining = st.timeRemaining := by
  unfold endGame
  split <;> rfl

/-- `endGame` keeps the score. -/
@[simp] theorem endGame_score (st : ChessData) : (endGame st).score = st.score := by
  unfold endGame
  split <;> rfl

/-- `endGame` keeps the correctness map. -/
@[simp] theorem endGame_is_correct (st : ChessData) :
    (endGame st).is_correct = st.is_correct := by
  unfold endGame
  split <;> rfl

/-- `endGame` keeps the correct counts. -/
@[simp] theorem endGame_correct (st : ChessData) :
    (endGame st).correct = st.correct := by
  unfold endGame
  split <;> rfl

/-- `endGame` keeps the active question types. -/
@[simp] theorem endGame_questionTypes (st : ChessData) :
    (endGame st).questionTypes = st.questionTypes := by
  unfold endGame
  split <;> rfl

/-- `endGame` keeps the side tag. -/
@[simp] theorem endGame_playerToMove (st : ChessData) :
    (endGame st).playerToMove = st.playerToMove := by
  unfold endGame
  split <;> rfl

/-- After `endGame` the game is ended. -/
@[simp] theorem endGame_gameEnded (st : ChessData) : (endGame st).gameEnded = true := by
  unfold endGame
  split
  · assumption
  · rfl

/-- `endGame` is idempotent: ending an ended game changes nothing. -/
theorem endGame_idem (st : ChessData) : endGame (endGame st) = endGame st := by
  unfold endGame
  by_cases h : st.gameEnded = true <;> simp [h]

/-- `penalizeTime` subtracts 10 seconds, floored at 0. -/
@[simp] theorem penalizeTime_timeRemaining (st : ChessData) :
    (penalizeTime st).timeRemaining = timeSub st.timeRemaining 10 := by
  simp only [penalizeTime]
  split <;> simp

/-- `penalizeTime` keeps the score. -/
@[simp] theorem penalizeTime_score (st : ChessData) :
    (penalizeTime st).score = st.score := by
  simp only [penalizeTime]
  split <;> simp

/-- `penalizeTime` keeps the correctness map. -/
@[simp] theorem penalizeTime_is_correct (st : ChessData) :
    (penalizeTime st).is_correct = st.is_correct := by
  simp only [penalizeTime]
  split <;> simp

/-- `penalizeTime` keeps the correct counts. -/
@[simp] theorem penalizeTime_correct (st : ChessData) :
    (penalizeTime st).correct = st.correct := by
  simp only [penalizeTime]
  split <;> simp

/-- `penalizeTime` keeps the active question types. -/
@[simp] theorem penalizeTime_questionTypes (st : ChessData) :
    (penalizeTime st).questionTypes = st.questionTypes := by
  simp only [penalizeTime]
  split <;> simp

/-- `penalizeTime` keeps the side tag. -/
@[simp] theorem penalizeTime_playerToMove (st : ChessData) :
    (penalizeTime st).playerToMove = st.playerToMove := by
  simp only [penalizeTime]
  split <;> simp

/-- `penalizeTime` keeps an ended game ended. -/
theorem penalizeTime_ended_mono (st : ChessData) (h : st.gameEnded = true) :
    (penalizeTime st).gameEnded = true := by
  simp only [penalizeTime]
  split
  · exact endGame_gameEnded _
  · exact h

/-- A tick on an ended game changes nothing at all. -/
theorem tickStep_ended (st : ChessData) (h : st.gameEnded = true) :
    tickStep st = st := by
  unfold tickStep
  rw [if_pos h]

/-- A tick on a live game subtracts exactly 1 second, floored at 0. -/
theorem tickStep_timeRemaining (st : ChessData) (h : st.gameEnded = false) :
    (tickStep st).timeRemaining = timeSub st.timeRemaining 1 := by
  simp only [tickStep]
  rw [if_neg (by simp [h])]
  split <;> simp

/-- A tick that brings the clock to 0 ends the game. -/
theorem tickStep_triggers_end (st : ChessData) (h : st.gameEnded = false)
    (h2 : timeLEZero (timeSub st.timeRemaining 1) = true) :
    (tickStep st).gameEnded = true := by
  simp only [tickStep]
  rw [if_neg (by simp [h])]
  rw [if_pos h2]
  exact endGame_gameEnded _

/-- One timer event keeps a non-negative clock non-negative. -/
theorem timerStep_time_nonneg (st : ChessData) (ev : TimerEv)
    (h : timeNonneg st.timeRemaining = true) :
    timeNonneg (timerStep st ev).timeRemaining = true := by
  cases ev with
  | tick =>
    by_cases he : st.gameEnded = true
    · rw [show timerStep st TimerEv.tick = tickStep st from rfl, tickStep_ended st he]
      exact h
    · rw [show timerStep st TimerEv.tick = tickStep st from rfl,
        tickStep_timeRemaining st (by simpa using he)]
      exact timeSub_nonneg _ _
  | penalty =>
    rw [show timerStep st TimerEv.penalty = penalizeTime st from rfl,
      penalizeTime_timeRemaining]
    exact timeSub_nonneg _ _

/-- One timer event does not increase a non-negative clock. -/
theorem timerStep_time_le (st : ChessData) (ev : TimerEv)
    (h : timeNonneg st.timeRemaining = true) :
    timeLE (timerStep st ev).timeRemaining st.timeRemaining = true := by
  cases ev with
  | tick =>
    by_cases he : st.gameEnded = true
    · rw [show timerStep st TimerEv.tick = tickStep st from rfl, tickStep_ended st he]
      exact timeLE_refl _
    · rw [show timerStep st TimerEv.tick = tickStep st from rfl,
        tickStep_timeRemaining st (by simpa using he)]
      exact timeSub_le _ _ h
  | penalty =>
    rw [show timerStep st TimerEv.penalty = penalizeTime st from rfl,
      penalizeTime_timeRemaining]
    exact timeSub_le _ _ h

/-- One timer event keeps an ended game ended. -/
theorem timerStep_ended_mono (st : ChessData) (ev : TimerEv)
    (h : st.gameEnded = true) : (timerStep st ev).gameEnded = true := by
  cases ev with
  | tick =>
    rw [show timerStep st TimerEv.tick = tickStep st from rfl, tickStep_ended st h]
    exact h
  | penalty =>
    exact penalizeTime_ended_mono st h

/-- Invariant of a whole event sequence: the clock stays non-negative and
non-increasing, and the ended latch stays set. -/
theorem timer_foldl_invariant (evs : List TimerEv) :
    ∀ st : ChessData, timeNonneg st.timeRemaining = true →
      timeNonneg (evs.foldl timerStep st).timeRemaining = true
      ∧ timeLE (evs.foldl timerStep st).timeRemaining st.timeRemaining = true
      ∧ (st.gameEnded = true → (evs.foldl timerStep st).gameEnded = true) := by
  induction evs with
  | nil => intro st h; exact ⟨h, timeLE_refl _, fun h2 => h2⟩
  | cons ev evs ih =>
    intro st h
    rw [List.foldl_cons]
    obtain ⟨a, b, c⟩ := ih (timerStep st ev) (timerStep_time_nonneg st ev h)
    exact ⟨a, timeLE_trans _ _ _ b (timerStep_time_le st ev h),
      fun h2 => c (timerStep_ended_mono st ev h2)⟩

/-- Claim C8: across any sequence of ticks and penalties starting from a
non-negative clock, `timeRemaining` stays non-negative and non-increasing;
a tick subtracts 1 and a penalty subtracts 10, both floored at 0; a tick that
reaches 0 sets `Ended`; the transition is one-way and happens exactly once
(ending is idempotent and the latch persists), and after `Ended` a tick
changes nothing at all — neither the clock nor any other session state. -/
theorem timer_monotone_and_ended_latch (evs : List TimerEv) (st : ChessData)
    (h0 : timeNonneg st.timeRemaining = true) :
    timeNonneg (evs.foldl timerStep st).timeRemaining = true
    ∧ timeLE (evs.foldl timerStep st).timeRemaining st.timeRemaining = true
    ∧ (st.gameEnded = false →
        (tickStep st).timeRemaining = timeSub st.timeRemaining 1)
    ∧ (penalizeTime st).timeRemaining = timeSub st.timeRemaining 10
    ∧ (st.gameEnded = false → timeLEZero (timeSub st.timeRemaining 1) = true →
        (tickStep st).gameEnded = true)
    ∧ (st.gameEnded = true → tickStep st = st)
    ∧ (st.gameEnded = true → (evs.foldl timerStep st).gameEnded = true)
    ∧ endGame (endGame st) = endGame st := by
  obtain ⟨a, b, c⟩ := timer_foldl_invariant evs st h0
  exact ⟨a, b, fun h => tickStep_timeRemaining st h, penalizeTime_timeRemaining st,
    fun h h2 => tickStep_triggers_end st h h2, fun h => tickStep_ended st h, c,
    endGame_idem st⟩

/-- Witness for `timer_monotone_and_ended_latch`: the demo state under one
tick followed by one penalty. -/
theorem timer_monotone_and_ended_latch_witness :
    timeNonneg demoState.timeRemaining = true
    ∧ (timeNonneg ([TimerEv.tick, TimerEv.penalty].foldl timerStep
          demoState).timeRemaining = true
      ∧ timeLE ([TimerEv.tick, TimerEv.penalty].foldl timerStep
          demoState).timeRemaining demoState.timeRemaining = true
      ∧ (demoState.gameEnded = false →
          (tickStep demoState).timeRemaining = timeSub demoState.timeRemaining 1)
      ∧ (penalizeTime demoState).timeRemaining = timeSub demoState.timeRemaining 10
      ∧ (demoState.gameEnded = false →
          timeLEZero (timeSub demoState.timeRemaining 1) = true →
          (tickStep demoState).gameEnded = true)
      ∧ (demoState.gameEnded = true → tickStep demoState = demoState)
      ∧ (demoState.gameEnded = true →
          ([TimerEv.tick, TimerEv.penalty].foldl timerStep demoState).gameEnded = true)
      ∧ endGame (endGame demoState) = endGame demoState) :=
  ⟨by decide,
    timer_monotone_and_ended_latch [TimerEv.tick, TimerEv.penalty] demoState (by decide)⟩

/-- One submission-loop iteration keeps the stored correct counts, the active
question types and the side tag. -/
theorem submitOne_fields (inputs : String → Option Int) (st : ChessData) (id : String) :
    (submitOne inputs st id).correct = st.correct
    ∧ (submitOne inputs st id).questionTypes = st.questionTypes
    ∧ (submitOne inputs st id).playerToMove = st.playerToMove := by
  refine ⟨?_, ?_, ?_⟩ <;> (simp only [submitOne]; split <;> split <;> simp)

/-- One submission-loop iteration increments the score exactly when the
question is newly answered correctly. -/
theorem submitOne_score (inputs : String → Option Int) (st : ChessData) (id : String) :
    (submitOne inputs st id).score =
      if (!st.is_correct id && (inputs id == some ((st.correct id : Int)))) = true
      then st.score + 1 else st.score := by
  by_cases hc : inputs id = some ((st.correct id : Int)) <;>
    rcases Bool.eq_false_or_eq_true (st.is_correct id) with hm | hm <;>
      simp [submitOne, hm, hc]

/-- The correctness map after one submission-loop iteration: the processed
question becomes marked when the submitted count is correct, everything else
is untouched. -/
theorem submitOne_is_correct (inputs : String → Option Int) (st : ChessData)
    (id x : String) :
    (submitOne inputs st id).is_correct x
      = (st.is_correct x
          || (decide (x = id) && (inputs id == some ((st.correct id : Int))))) := by
  by_cases hc : inputs id = some ((st.correct id : Int)) <;>
    rcases Bool.eq_false_or_eq_true (st.is_correct id) with hm | hm <;>
      by_cases hx : x = id <;> simp [submitOne, hm, hc, hx]

/-- The whole submission loop keeps the stored correct counts, the active
question types and the side tag. -/
theorem submit_foldl_fields (inputs : String → Option Int) (l : List String) :
    ∀ st : ChessData,
      (l.foldl (submitOne inputs) st).correct = st.correct
      ∧ (l.foldl (submitOne inputs) st).questionTypes = st.questionTypes
      ∧ (l.foldl (submitOne inputs) st).playerToMove = st.playerToMove := by
  induction l with
  | nil => intro st; exact ⟨rfl, rfl, rfl⟩
  | cons a t ih =>
    intro st
    rw [List.foldl_cons]
    obtain ⟨h1, h2, h3⟩ := ih (submitOne inputs st a)
    obtain ⟨g1, g2, g3⟩ := submitOne_fields inputs st a
    exact ⟨h1.trans g1, h2.trans g2, h3.trans g3⟩

/-- A question marked correct stays marked through the submission loop. -/
theorem submit_foldl_keeps (inputs : String → Option Int) (l : List String) :
    ∀ (st : ChessData) (x : String), st.is_correct x = true →
      (l.foldl (submitOne inputs) st).is_correct x = true := by
  induction l with
  | nil => intro st x h; exact h
  | cons a t ih =>
    intro st x h
    rw [List.foldl_cons]
    exact ih _ x (by rw [submitOne_is_correct, h]; rfl)

/-- A question with a wrong submitted count stays unmarked through the
submission loop. -/
theorem submit_foldl_keeps_false (inputs : String → Option Int) (l : List String) :
    ∀ (st : ChessData) (x : String), st.is_correct x = false →
      (inputs x == some ((st.correct x : Int))) = false →
      (l.foldl (submitOne inputs) st).is_correct x = false := by
  induction l with
  | nil => intro st x h hc; exact h
  | cons a t ih =>
    intro st x h hc
    rw [List.foldl_cons]
    have hone : (submitOne inputs st a).is_correct x = false := by
      rw [submitOne_is_correct, h]
      by_cases hx : x = a
      · subst hx
        simp [hc]
      · simp [hx]
    exact ih _ x hone (by rw [(submitOne_fields inputs st a).1]; exact hc)

/-- A processed question with a correct submitted count ends the loop
marked. -/
theorem submit_foldl_marks (inputs : String → Option Int) (l : List String) :
    ∀ (st : ChessData) (x : String), x ∈ l →
      (inputs x == some ((st.correct x : Int))) = true →
      (l.foldl (submitOne inputs) st).is_correct x = true := by
  induction l with
  | nil => intro st x hx _; exact absurd hx (by simp)
  | cons a t ih =>
    intro st x hx hc
    rw [List.foldl_cons]
    rcases List.mem_cons.mp hx with h | h
    · subst h
      apply submit_foldl_keeps inputs t (submitOne inputs st x) x
      rw [submitOne_is_correct]
      rcases Bool.eq_false_or_eq_true (st.is_correct x) with hsc | hsc
      · rw [hsc]
        rfl
      · rw [hsc]
        simp only [Bool.false_or, Bool.and_eq_true, decide_eq_true_eq]
        exact ⟨trivial, hc⟩
    · exact ih (submitOne inputs st a) x h
        (by rw [(submitOne_fields inputs st a).1]; exact hc)

/-- The submission loop adds to the score exactly the number of distinct
active questions that flip from unmarked to correct. -/
theorem submit_foldl_score (inputs : String → Option Int) (l : List String) :
    ∀ st : ChessData, l.Nodup →
      (l.foldl (submitOne inputs) st).score
        = st.score + l.countP
            (fun id => !st.is_correct id
              && (inputs id == some ((st.correct id : Int)))) := by
  induction l with
  | nil => intro st _; simp
  | cons a t ih =>
    intro st hnd
    obtain ⟨hna, hndt⟩ := List.nodup_cons.mp hnd
    rw [List.foldl_cons, ih (submitOne inputs st a) hndt]
    have hpred : t.countP (fun id => !(submitOne inputs st a).is_correct id
          && (inputs id == some (((submitOne inputs st a).correct id : Int))))
        = t.countP (fun id => !st.is_correct id
            && (inputs id == some ((st.correct id : Int)))) := by
      apply List.countP_congr
      intro x hx
      have hxa : x ≠ a := fun he => hna (he ▸ hx)
      rw [(submitOne_fields inputs st a).1, submitOne_is_correct]
      simp [hxa]
    rw [hpred, submitOne_score, List.countP_cons]
    split <;> omega

/-- Running a second identical submission loop adds nothing to the score:
every question it could mark was already marked by the first loop. -/
theorem submit_second_noop (inputs : String → Option Int) (l : List String)
    (st : ChessData) (hnd : l.Nodup) :
    (l.foldl (submitOne inputs) (l.foldl (submitOne inputs) st)).score
      = (l.foldl (submitOne inputs) st).score := by
  rw [submit_foldl_score inputs l _ hnd]
  have hzero : l.countP (fun id => !(l.foldl (submitOne inputs) st).is_correct id
      && (inputs id == some (((l.foldl (submitOne inputs) st).correct id : Int))))
      = 0 := by
    rw [List.countP_eq_zero]
    intro x hx hpx
    simp only [Bool.and_eq_true] at hpx
    obtain ⟨h1, h2⟩ := hpx
    rw [(submit_foldl_fields inputs l st).1] at h2
    have hmk := submit_foldl_marks inputs l st x hx h2
    rw [hmk] at h1
    simp at h1
  rw [hzero]
  omega

/-- Left-folding `&&` over mapped Booleans is `all`. -/
theorem foldl_and_eq_all (f : String → Bool) (l : List String) :
    ∀ acc : Bool, (l.map f).foldl (fun acc cur => acc && cur) acc = (acc && l.all f) := by
  induction l with
  | nil => intro acc; simp
  | cons a t ih =>
    intro acc
    simp only [List.map_cons, List.foldl_cons, List.all_cons, ih, Bool.and_assoc]

/-- `all` is false as soon as one listed element is false. -/
theorem all_false_of_mem (f : String → Bool) (l : List String) (x : String)
    (hx : x ∈ l) (hfx : f x = false) : l.all f = false := by
  induction l with
  | nil => exact absurd hx (List.not_mem_nil x)
  | cons a t ih =>
    rcases List.mem_cons.mp hx with h | h
    · subst h
      simp [List.all_cons, hfx]
    · simp [List.all_cons, ih h]

/-- When the game is live and at least one active question is unmarked with a
wrong submitted count, `submitAnswers` is exactly the submission loop: the
game-over early return does not fire on entry, and the all-correct reload is
not taken. -/
theorem submitAnswers_eq_loop (inputs : String → Option Int)
    (reload : ChessData → ChessData) (st : ChessData)
    (hend : st.gameEnded = false)
    (hid : ∃ id ∈ getFixedDisplayQuestionTypes st.playerToMove st.questionTypes,
        st.is_correct id = false
        ∧ (inputs id == some ((st.correct id : Int))) = false) :
    submitAnswers inputs reload st
      = (getFixedDisplayQuestionTypes st.playerToMove st.questionTypes).foldl
          (submitOne inputs) st := by
  obtain ⟨id0, hmem, hf, hc⟩ := hid
  have hfold := submit_foldl_fields inputs
    (getFixedDisplayQuestionTypes st.playerToMove st.questionTypes) st
  have hafter : ((getFixedDisplayQuestionTypes st.playerToMove st.questionTypes).foldl
      (submitOne inputs) st).is_correct id0 = false :=
    submit_foldl_keeps_false inputs _ st id0 hf hc
  simp only [submitAnswers]
  rw [if_neg (by simp [hend])]
  by_cases hge : ((getFixedDisplayQuestionTypes st.playerToMove st.questionTypes).foldl
      (submitOne inputs) st).gameEnded = true
  · rw [if_pos hge]
  · rw [if_neg hge, if_neg (by
      intro hcc
      rw [hfold.2.1, hfold.2.2, foldl_and_eq_all, Bool.true_and] at hcc
      rw [all_false_of_mem (fun id => ((getFixedDisplayQuestionTypes st.playerToMove
          st.questionTypes).foldl (submitOne inputs) st).is_correct id)
        (getFixedDisplayQuestionTypes st.playerToMove st.questionTypes) id0 hmem
        (by simpa using hafter)] at hcc
      exact absurd hcc (by simp))]

/-- Claim C7: within one puzzle, submitting the same correct count for a
question type twice increments the score by exactly 1 in total, not 2.  Under
a live game and at least one other unmarked question answered wrong (so the
session stays on the same puzzle), the first submit marks `qt` and adds one
point per newly-correct question — exactly one of them being `qt` when it was
unmarked — and a second identical submit leaves the score unchanged. -/
theorem submit_correct_twice_increments_once
    (inputs : String → Option Int) (reload : ChessData → ChessData)
    (st : ChessData) (qt : String)
    (hnd : (getFixedDisplayQuestionTypes st.playerToMove st.questionTypes).Nodup)
    (hend : st.gameEnded = false)
    (hqt : qt ∈ getFixedDisplayQuestionTypes st.playerToMove st.questionTypes)
    (hin : inputs qt = some ((st.correct qt : Int)))
    (hwrong : ∃ id ∈ getFixedDisplayQuestionTypes st.playerToMove st.questionTypes,
        st.is_correct id = false ∧ inputs id ≠ some ((st.correct id : Int))) :
    (submitAnswers inputs reload st).is_correct qt = true
    ∧ (submitAnswers inputs reload st).score
        = st.score + (getFixedDisplayQuestionTypes st.playerToMove
            st.questionTypes).countP
            (fun id => !st.is_correct id
              && (inputs id == some ((st.correct id : Int))))
    ∧ (submitAnswers inputs reload (submitAnswers inputs reload st)).score
        = (submitAnswers inputs reload st).score := by
  obtain ⟨id0, hid0mem, hid0f, hid0w⟩ := hwrong
  have hid0c : (inputs id0 == some ((st.correct id0 : Int))) = false := by
    simpa using hid0w
  have hinb : (inputs qt == some ((st.correct qt : Int))) = true := by
    simp [hin]
  have hloop := submitAnswers_eq_loop inputs reload st hend ⟨id0, hid0mem, hid0f, hid0c⟩
  have hfold := submit_foldl_fields inputs
    (getFixedDisplayQuestionTypes st.playerToMove st.questionTypes) st
  refine ⟨?_, ?_, ?_⟩
  · rw [hloop]
    exact submit_foldl_marks inputs _ st qt hqt hinb
  · rw [hloop]
    exact submit_foldl_score inputs _ st hnd
  · rw [hloop]
    by_cases hge1 : ((getFixedDisplayQuestionTypes st.playerToMove
        st.questionTypes).foldl (submitOne inputs) st).gameEnded = true
    · have hsame : submitAnswers inputs reload
          ((getFixedDisplayQuestionTypes st.playerToMove st.questionTypes).foldl
            (submitOne inputs) st)
          = (getFixedDisplayQuestionTypes st.playerToMove st.questionTypes).foldl
              (submitOne inputs) st := by
        simp only [submitAnswers]
        rw [if_pos hge1]
      rw [hsame]
    · have hid0f1 : ((getFixedDisplayQuestionTypes st.playerToMove
          st.questionTypes).foldl (submitOne inputs) st).is_correct id0 = false :=
        submit_foldl_keeps_false inputs _ st id0 hid0f hid0c
      have hid0c1 : (inputs id0 == some (Int.ofNat
          (((getFixedDisplayQuestionTypes st.playerToMove st.questionTypes).foldl
            (submitOne inputs) st).correct id0))) = false := by
        rw [hfold.1]
        exact hid0c
      have hmem1 : id0 ∈ getFixedDisplayQuestionTypes
          (((getFixedDisplayQuestionTypes st.playerToMove st.questionTypes).foldl
            (submitOne inputs) st)).playerToMove
          (((getFixedDisplayQuestionTypes st.playerToMove st.questionTypes).foldl
            (submitOne inputs) st)).questionTypes := by
        rw [hfold.2.1, hfold.2.2]
        exact hid0mem
      have hloop2 := submitAnswers_eq_loop inputs reload
        ((getFixedDisplayQuestionTypes st.playerToMove st.questionTypes).foldl
          (submitOne inputs) st)
        (by simpa using hge1) ⟨id0, hmem1, hid0f1, hid0c1⟩
      rw [hloop2, hfold.2.1, hfold.2.2]
      exact submit_second_noop inputs _ st hnd

/-- Witness for `submit_correct_twice_increments_once`: the demo state with a
correct `p1Checks` count and a wrong `p1Captures` count, submitted twice with
the identity reload. -/
theorem submit_correct_twice_increments_once_witness :
    (getFixedDisplayQuestionTypes demoState.playerToMove demoState.questionTypes).Nodup
    ∧ demoState.gameEnded = false
    ∧ "p1Checks" ∈ getFixedDisplayQuestionTypes demoState.playerToMove
        demoState.questionTypes
    ∧ demoInputs "p1Checks" = some ((demoState.correct "p1Checks" : Int))
    ∧ (∃ i ∈ getFixedDisplayQuestionTypes demoState.playerToMove
          demoState.questionTypes,
        demoState.is_correct i = false
        ∧ demoInputs i ≠ some ((demoState.correct i : Int)))
    ∧ ((submitAnswers demoInputs id demoState).is_correct "p1Checks" = true
      ∧ (submitAnswers demoInputs id demoState).score
          = demoState.score + (getFixedDisplayQuestionTypes demoState.playerToMove
              demoState.questionTypes).countP
              (fun i => !demoState.is_correct i
                && (demoInputs i == some ((demoState.correct i : Int))))
      ∧ (submitAnswers demoInputs id (submitAnswers demoInputs id demoState)).score
          = (submitAnswers demoInputs id demoState).score) := by
  have hw : ∃ i ∈ getFixedDisplayQuestionTypes demoState.playerToMove
      demoState.questionTypes,
      demoState.is_correct i = false
      ∧ demoInputs i ≠ some ((demoState.correct i : Int)) :=
    ⟨"p1Captures", by decide, rfl, by decide⟩
  exact ⟨by decide, rfl, by decide, rfl, hw,
    submit_correct_twice_increments_once demoInputs id demoState "p1Checks"
      (by decide) rfl (by decide) rfl hw⟩

end ChessCountQuiz
